import Mathlib

/-!
Verification of the entry-size analysis tool (get-sizing-for-entry-with-richtext).

The tool's core (src/index.js) measures the serialized size of a CMS entry's
rich-text field per locale: `getByteSize`, `getCharacterCount`,
`extractPlainTextFromRichText`, `analyzeContentOverhead`, and the per-locale /
per-field aggregation loops inside `analyzeEntryContentSizes`.

The JavaScript runtime values handled by the tool (plain strings, rich-text
JSON objects, arrays, null/undefined, numbers, booleans) are embedded as the
mutual inductive `JsValue`/`JsArr`/`JsFields` below; JS objects are key-value
sequences in insertion order, exactly how `Object.keys`/`JSON.stringify`
iterate them.  `Buffer.byteLength(s, "utf8")` is embedded as `utf8Len` (sum of
UTF-8 sizes of the characters) and JS `String.prototype.length` as `utf16Len`
(UTF-16 code units).  A thrown `TypeError` (property access on
null/undefined, `Buffer.byteLength(undefined)`) is embedded as
`Except.error ()`.
-/

namespace EntrySize

/-- UTF-8 byte length of a list of characters (sum of per-character sizes). -/
def utf8LenL (l : List Char) : Nat := (l.map Char.utf8Size).sum

/-- `Buffer.byteLength(s, "utf8")`: UTF-8 byte length of a string. -/
def utf8Len (s : String) : Nat := utf8LenL s.data

/-- Number of UTF-16 code units a character occupies (JS string `.length` counts
these): 1 for BMP characters, 2 for supplementary-plane characters. -/
def utf16Units (c : Char) : Nat := if c.toNat < 65536 then 1 else 2

/-- JS `String.prototype.length`: number of UTF-16 code units of a string. -/
def utf16Len (s : String) : Nat := (s.data.map utf16Units).sum

theorem utf8LenL_append (a b : List Char) :
    utf8LenL (a ++ b) = utf8LenL a + utf8LenL b := by
  simp [utf8LenL]

theorem utf8Len_append (a b : String) :
    utf8Len (a ++ b) = utf8Len a + utf8Len b := by
  simp [utf8Len, utf8LenL, String.data_append]

mutual
/-- Embedding of the JavaScript values the tool manipulates.  Objects
(`vobj`) keep their fields in insertion order; `vundef` is `undefined`. -/
inductive JsValue : Type where
  | vnull : JsValue
  | vundef : JsValue
  | vbool (b : Bool) : JsValue
  | vnum (n : Int) : JsValue
  | vstr (s : String) : JsValue
  | varr (elems : JsArr) : JsValue
  | vobj (fields : JsFields) : JsValue

inductive JsArr : Type where
  | nil : JsArr
  | cons (head : JsValue) (tail : JsArr) : JsArr

inductive JsFields : Type where
  | nil : JsFields
  | cons (key : String) (val : JsValue) (tail : JsFields) : JsFields
end

/-- JS truthiness (`!!v`): `""`, `0`, `false`, `null`, `undefined` are falsy;
every object and array is truthy. -/
def truthy : JsValue → Bool
  | .vnull => false
  | .vundef => false
  | .vbool b => b
  | .vnum n => n != 0
  | .vstr s => s != ""
  | .varr _ => true
  | .vobj _ => true

/-- `typeof v === "object"` (true for objects, arrays and `null`). -/
def isObjectType : JsValue → Bool
  | .vobj _ => true
  | .varr _ => true
  | .vnull => true
  | _ => false

/-- First binding of a key in an object's field list (JS objects have unique
keys; property access reads this binding, `none` meaning `undefined`). -/
def lookupField : JsFields → String → Option JsValue
  | .nil, _ => none
  | .cons k v rest, key => if k = key then some v else lookupField rest key

/-- JS property read `receiver[key]` for the receivers the tool applies it to:
object fields by key, everything else (primitives, arrays with non-index keys)
yields `undefined`.  Callers guard against null/undefined receivers. -/
def jsMember (v : JsValue) (key : String) : JsValue :=
  match v with
  | .vobj fs => (lookupField fs key).getD .vundef
  | _ => .vundef

mutual
/-- JS ToString coercion as used by `plainText += node.value`: arrays join
their elements with commas (null/undefined elements become empty). -/
def jsToString : JsValue → String
  | .vnull => "null"
  | .vundef => "undefined"
  | .vbool b => cond b "true" "false"
  | .vnum n => toString n
  | .vstr s => s
  | .varr xs => jsArrToString xs
  | .vobj _ => "[object Object]"

def jsArrToString : JsArr → String
  | .nil => ""
  | .cons v .nil =>
      (match v with
       | .vnull => ""
       | .vundef => ""
       | w => jsToString w)
  | .cons v rest =>
      (match v with
       | .vnull => ""
       | .vundef => ""
       | w => jsToString w) ++ "," ++ jsArrToString rest
end

/-- Lower-case hexadecimal digit, as `JSON.stringify` emits in `\u00XX`. -/
def hexDigit (n : Nat) : Char :=
  if n < 10 then Char.ofNat (48 + n) else Char.ofNat (87 + n)

/-- Escape of one character inside a JSON string literal, per
`JSON.stringify`: quote, backslash and control characters are escaped, all
other characters (multi-byte included) are kept literally. -/
def jsonEscapeChar (c : Char) : List Char :=
  if c = '"' then ['\\', '"']
  else if c = '\\' then ['\\', '\\']
  else if c = '\n' then ['\\', 'n']
  else if c = '\r' then ['\\', 'r']
  else if c = '\t' then ['\\', 't']
  else if c = '\x08' then ['\\', 'b']
  else if c = '\x0c' then ['\\', 'f']
  else if c.toNat < 32 then ['\\', 'u', '0', '0', hexDigit (c.toNat / 16), hexDigit (c.toNat % 16)]
  else [c]

/-- JSON string literal for `s` (quotes plus escaped body). -/
def jsonQuote (s : String) : String :=
  "\"" ++ String.mk ((s.data.map jsonEscapeChar).flatten) ++ "\""

/-- `parts.join(",")`. -/
def commaJoin : List String → String
  | [] => ""
  | [s] => s
  | s :: rest => s ++ "," ++ commaJoin rest

mutual
/-- `JSON.stringify`: `none` is the `undefined` result (for `undefined`
input); inside arrays `undefined` serializes as `null`, inside objects
`undefined`-valued keys are dropped. -/
def stringifyVal : JsValue → Option String
  | .vundef => none
  | .vnull => some "null"
  | .vbool b => some (cond b "true" "false")
  | .vnum n => some (toString n)
  | .vstr s => some (jsonQuote s)
  | .varr xs => some ("[" ++ commaJoin (arrParts xs) ++ "]")
  | .vobj fs => some ("\x7b" ++ commaJoin (objParts fs) ++ "\x7d")

def arrParts : JsArr → List String
  | .nil => []
  | .cons v rest => ((stringifyVal v).getD "null") :: arrParts rest

def objParts : JsFields → List String
  | .nil => []
  | .cons k v rest =>
      match stringifyVal v with
      | some sv => (jsonQuote k ++ ":" ++ sv) :: objParts rest
      | none => objParts rest
end

/-- `getByteSize` (src/index.js:13-30): 0 for falsy values, UTF-8 byte length
for strings, UTF-8 byte length of the JSON serialization for objects, 0 for
any other (truthy number/boolean) value. -/
def getByteSize (content : JsValue) : Nat :=
  if truthy content = false then 0
  else
    match content with
    | .vstr s => utf8Len s
    | .vobj _ => utf8Len ((stringifyVal content).getD "")
    | .varr _ => utf8Len ((stringifyVal content).getD "")
    | _ => 0

/-- `getCharacterCount` (src/index.js:37-54): 0 for falsy values, JS string
length (UTF-16 code units) for strings, length of the JSON serialization for
objects, 0 otherwise. -/
def getCharacterCount (content : JsValue) : Nat :=
  if truthy content = false then 0
  else
    match content with
    | .vstr s => utf16Len s
    | .vobj _ => utf16Len ((stringifyVal content).getD "")
    | .varr _ => utf16Len ((stringifyVal content).getD "")
    | _ => 0

/-- Text contributed by `node.value` in the walker: appended only when
truthy, JS-coerced to a string. -/
def valuePart (o : Option JsValue) : String :=
  match o with
  | some v => if truthy v then jsToString v else ""
  | none => ""

mutual
/-- The inner `traverse` of `extractPlainTextFromRichText`
(src/index.js:68-75): appends `node.value` when truthy, then recurses into
`node.content` when it is an array.  Property access on `null`/`undefined`
(possible when a content array holds such an element) throws a `TypeError`,
embedded as `Except.error ()`. -/
def traverse : JsValue → Except Unit String
  | .vnull => .error ()
  | .vundef => .error ()
  | .vobj fs =>
      match traverseContent fs with
      | .error e => .error e
      | .ok rest => .ok (valuePart (lookupField fs "value") ++ rest)
  | _ => .ok ""

/-- Reads the (first) `content` property of the node's fields and recurses
into it when it is an array (`node.content && Array.isArray(node.content)`). -/
def traverseContent : JsFields → Except Unit String
  | .nil => .ok ""
  | .cons k v rest =>
      if k = "content" then
        match v with
        | .varr xs => traverseArr xs
        | _ => .ok ""
      else traverseContent rest

/-- `node.content.forEach(traverse)`: left-to-right traversal of the child
array, concatenating the collected text; a throw aborts the whole walk. -/
def traverseArr : JsArr → Except Unit String
  | .nil => .ok ""
  | .cons v rest =>
      match traverse v with
      | .error e => .error e
      | .ok s =>
          match traverseArr rest with
          | .error e => .error e
          | .ok t => .ok (s ++ t)
end

/-- `extractPlainTextFromRichText` (src/index.js:61-79): falsy or non-object
input yields `""`; otherwise the tree is walked by `traverse`. -/
def extractPlainTextFromRichText (richTextContent : JsValue) : Except Unit String :=
  if truthy richTextContent && isObjectType richTextContent then
    traverse richTextContent
  else .ok ""

/-- Result record of `analyzeContentOverhead`.  `overheadSize` is an integer
(the source computes `totalSize - contentSize`, which JS does not clamp); the
percentage is the source's float arithmetic carried out exactly in `ℚ`
(`parseFloat(x.toFixed(1))` becomes rounding to one decimal place). -/
structure OverheadResult where
  totalSize : Nat
  contentSize : Nat
  overheadSize : Int
  overheadPercentage : ℚ
deriving Repr, DecidableEq

/-- Rounding to one decimal place (round half up), the exact-arithmetic
rendering of `parseFloat(pct.toFixed(1))`. -/
def roundTenths (q : ℚ) : ℚ := (⌊q * 10 + 1 / 2⌋ : ℤ) / 10

/-- `analyzeContentOverhead` (src/index.js:86-133): falsy input gives the
all-zero record; a string has no overhead; an object is serialized, its plain
text extracted, and the overhead is the difference of the byte sizes.  The
extractor's possible `TypeError` propagates. -/
def analyzeContentOverhead (content : JsValue) : Except Unit OverheadResult :=
  if truthy content = false then
    .ok ⟨0, 0, 0, 0⟩
  else
    match content with
    | .vstr s => .ok ⟨utf8Len s, utf8Len s, 0, 0⟩
    | .vobj _ =>
        (match extractPlainTextFromRichText content with
         | .error e => .error e
         | .ok plainText =>
             let totalSize := utf8Len ((stringifyVal content).getD "")
             let contentSize := utf8Len plainText
             let overheadSize : Int := (totalSize : Int) - (contentSize : Int)
             let overheadPercentage : ℚ :=
               if 0 < totalSize then roundTenths ((overheadSize : ℚ) / (totalSize : ℚ) * 100) else 0
             .ok ⟨totalSize, contentSize, overheadSize, overheadPercentage⟩)
    | .varr _ =>
        (match extractPlainTextFromRichText content with
         | .error e => .error e
         | .ok plainText =>
             let totalSize := utf8Len ((stringifyVal content).getD "")
             let contentSize := utf8Len plainText
             let overheadSize : Int := (totalSize : Int) - (contentSize : Int)
             let overheadPercentage : ℚ :=
               if 0 < totalSize then roundTenths ((overheadSize : ℚ) / (totalSize : ℚ) * 100) else 0
             .ok ⟨totalSize, contentSize, overheadSize, overheadPercentage⟩)
    | _ => .ok ⟨0, 0, 0, 0⟩

mutual
/-- The spec's `RichDocument` data model: a node with an optional leaf
`value` string and an optional ordered sequence of children. -/
inductive RichDoc : Type where
  | mk (value : Option String) (content : ContentOpt) : RichDoc

/-- Optional `content` of a rich-document node (absent, or a child list). -/
inductive ContentOpt : Type where
  | none : ContentOpt
  | some (children : DocList) : ContentOpt

/-- Ordered sequence of rich-document children. -/
inductive DocList : Type where
  | nil : DocList
  | cons (head : RichDoc) (tail : DocList) : DocList
end

mutual
/-- The JS object a `RichDoc` denotes: `value` and `content` keys present
exactly when the corresponding component is. -/
def toJs : RichDoc → JsValue
  | .mk v c => .vobj (toJsFields v c)

def toJsFields : Option String → ContentOpt → JsFields
  | Option.some s, c => .cons "value" (.vstr s) (contentFieldsOf c)
  | Option.none, c => contentFieldsOf c

def contentFieldsOf : ContentOpt → JsFields
  | .none => .nil
  | .some l => .cons "content" (.varr (toJsArr l)) .nil

def toJsArr : DocList → JsArr
  | .nil => .nil
  | .cons d rest => .cons (toJs d) (toJsArr rest)
end

mutual
/-- Depth-first pre-order concatenation of every `value` field of a rich
document — the output the spec prescribes for the text extractor. -/
def richDocText : RichDoc → String
  | .mk v c => v.getD "" ++ contentText c

def contentText : ContentOpt → String
  | .none => ""
  | .some l => docListText l

def docListText : DocList → String
  | .nil => ""
  | .cons d rest => richDocText d ++ docListText rest
end

/-- A locale descriptor as supplied by the collaborator. -/
structure Locale where
  code : String
  name : String
deriving Repr, DecidableEq

/-- One per-locale record pushed onto `results` (src/index.js:280-289); the
display-only `formattedSize`/`formattedChars` strings are rendering, not
analysis, and are omitted. -/
structure LocaleResult where
  localeCode : String
  localeName : String
  sizeInBytes : Nat
  characterCount : Nat
  overheadAnalysis : OverheadResult
  hasContent : Bool
deriving Repr, DecidableEq

/-- The running totals of the per-locale loop (src/index.js:261-265). -/
structure Totals where
  totalSize : Nat
  totalCharacters : Nat
  totalContentSize : Nat
  totalOverheadSize : Int
  localesWithContent : Nat
deriving Repr, DecidableEq

/-- Body of the per-locale loop (src/index.js:270-289): look the locale's
value up in the content field, measure it, and analyze its overhead.
`hasContent` is `!!content`, the truthiness of the raw value. -/
def processLocale (contentField : JsValue) (locale : Locale) : Except Unit LocaleResult :=
  let content := jsMember contentField locale.code
  match analyzeContentOverhead content with
  | .error e => .error e
  | .ok overheadAnalysis =>
      .ok ⟨locale.code, locale.name, getByteSize content, getCharacterCount content,
           overheadAnalysis, truthy content⟩

/-- Accumulation step (src/index.js:291-297): totals grow only when the
locale's raw value is truthy. -/
def addTotals (r : LocaleResult) (t : Totals) : Totals :=
  if r.hasContent then
    ⟨r.sizeInBytes + t.totalSize, r.characterCount + t.totalCharacters,
     r.overheadAnalysis.contentSize + t.totalContentSize,
     r.overheadAnalysis.overheadSize + t.totalOverheadSize,
     t.localesWithContent + 1⟩
  else t

/-- The whole per-locale loop: emits one `LocaleResult` per locale in the
order given and accumulates the running totals.  A `TypeError` thrown while
analyzing any locale aborts the analysis, as in the source. -/
def localeFold (contentField : JsValue) : List Locale → Except Unit (List LocaleResult × Totals)
  | [] => .ok ([], ⟨0, 0, 0, 0, 0⟩)
  | locale :: rest =>
      match processLocale contentField locale with
      | .error e => .error e
      | .ok r =>
          match localeFold contentField rest with
          | .error e => .error e
          | .ok (rs, t) => .ok (r :: rs, addTotals r t)

/-- Per-field serialized sizes (src/index.js:394-403): every field id of the
entry paired with the byte length of the field's all-locales JSON
serialization, in the entry's field insertion order.
`Buffer.byteLength(JSON.stringify(undefined))` would throw, hence `Except`. -/
def fieldSizesE : JsFields → Except Unit (List (String × Nat))
  | .nil => .ok []
  | .cons k v rest =>
      match stringifyVal v with
      | Option.none => .error ()
      | Option.some j =>
          match fieldSizesE rest with
          | .error e => .error e
          | .ok l => .ok ((k, utf8Len j) :: l)

/-- Insertion step of a stable descending-by-size sort: a newly inserted
element goes after every element of equal or larger size. -/
def insertBySizeDesc (x : String × Nat) : List (String × Nat) → List (String × Nat)
  | [] => [x]
  | y :: ys => if x.2 ≤ y.2 then y :: insertBySizeDesc x ys else x :: y :: ys

/-- `Object.entries(fieldSizes).sort(([, a], [, b]) => b - a)`: JS
`Array.prototype.sort` is stable and this comparator looks only at sizes, so
the result is the stable descending-by-size reordering of the input. -/
def sortBySizeDesc (l : List (String × Nat)) : List (String × Nat) :=
  l.foldl (fun acc x => insertBySizeDesc x acc) []

/-- The three usage bands the summary prints (src/index.js:364-377). -/
inductive Band : Type where
  | warning : Band
  | caution : Band
  | safe : Band
deriving Repr, DecidableEq

/-- `twoMBInBytes = 2 * 1024 * 1024`. -/
def twoMBInBytes : Nat := 2 * 1024 * 1024

/-- Band classification of the total entry size (src/index.js:365-377).  The
source compares the integer `totalEntrySize` against the binary64 products
`twoMBInBytes * 0.8` and `twoMBInBytes * 0.6`; those products are exactly the
dyadic rationals `7205759403792794 / 2^32` and `5404319552844595 / 2^32`
(both exactly representable), so the comparisons are rendered exactly over
`2^32`-scaled integers. -/
def usageBand (totalEntrySize : Nat) : Band :=
  if 7205759403792794 < 4294967296 * totalEntrySize then .warning
  else if 5404319552844595 < 4294967296 * totalEntrySize then .caution
  else .safe

/-- Failure modes of the analysis: the configured field id missing from the
entry (src/index.js:226-230 exits), or a `TypeError` thrown while walking a
malformed rich-text value (uncaught until the top-level handler, which also
exits without a report). -/
inductive AnalysisError : Type where
  | missingField : AnalysisError
  | typeError : AnalysisError
deriving Repr, DecidableEq

/-- The analysis core of `analyzeEntryContentSizes` (src/index.js:223-417) as
a function of the collaborator-supplied data: locale list, the entry's field
map, and the configured field id.  The source first sorts locales with
`String.prototype.localeCompare`, a host-locale/ICU-dependent collation; the
sort is therefore taken as a parameter `sortLocales`. -/
def analyzeEntryContentSizes (sortLocales : List Locale → List Locale)
    (locales : List Locale) (entryFields : JsFields) (contentFieldId : String) :
    Except AnalysisError (List LocaleResult × Totals × List (String × Nat)) :=
  let contentField := (lookupField entryFields contentFieldId).getD .vundef
  if truthy contentField = false then .error .missingField
  else
    match localeFold contentField (sortLocales locales) with
    | .error _ => .error .typeError
    | .ok (results, totals) =>
        match fieldSizesE entryFields with
        | .error _ => .error .typeError
        | .ok sizes => .ok (results, totals, sortBySizeDesc sizes)

theorem char_le_of_le_lit {c : Char} {m : Nat} (hp : m < 4294967296)
    (h : c.val ≤ UInt32.ofNatCore m hp) : c.toNat ≤ m := by
  have h1 := (UInt32.le_def (a := c.val) (b := UInt32.ofNatCore m hp)).mp h
  have h2 := BitVec.le_def.mp h1
  simpa [Char.toNat, UInt32.toNat, UInt32.ofNatCore, BitVec.ofNatLt] using h2

/-- Every character needs at least as many UTF-8 bytes as UTF-16 code units. -/
theorem utf16Units_le_utf8Size (c : Char) : utf16Units c ≤ c.utf8Size := by
  unfold utf16Units Char.utf8Size
  dsimp only
  split
  · split
    · omega
    · split
      · omega
      · split <;> omega
  · split
    · rename_i h1 h2
      exact absurd (char_le_of_le_lit _ h2) (by omega)
    · split
      · rename_i h1 h2 h3
        exact absurd (char_le_of_le_lit _ h3) (by omega)
      · split
        · rename_i h1 h2 h3 h4
          exact absurd (char_le_of_le_lit _ h4) (by omega)
        · omega

/-- A multi-byte character strictly exceeds its UTF-16 unit count in UTF-8. -/
theorem utf16Units_lt_of_two_le {c : Char} (h : 2 ≤ c.utf8Size) :
    utf16Units c < c.utf8Size := by
  unfold utf16Units
  unfold Char.utf8Size at h ⊢
  dsimp only at h ⊢
  split at h
  · omega
  · split at h
    · rename_i h1 h2
      have := char_le_of_le_lit _ h2
      split <;> omega
    · split at h
      · rename_i h1 h2 h3
        have := char_le_of_le_lit _ h3
        split <;> omega
      · split <;> omega

theorem utf16_sum_le_utf8LenL (l : List Char) : (l.map utf16Units).sum ≤ utf8LenL l := by
  induction l with
  | nil => simp [utf8LenL]
  | cons a l ih =>
      have := utf16Units_le_utf8Size a
      simp only [List.map_cons, List.sum_cons, utf8LenL] at ih ⊢
      omega

theorem utf16_sum_lt_utf8LenL (l : List Char) (h : ∃ c ∈ l, 2 ≤ c.utf8Size) :
    (l.map utf16Units).sum < utf8LenL l := by
  induction l with
  | nil => simp at h
  | cons a l ih =>
      simp only [List.map_cons, List.sum_cons, utf8LenL, List.map_cons, List.sum_cons]
      rcases h with ⟨c, hc, hsize⟩
      rcases List.mem_cons.mp hc with rfl | hmem
      · have h1 := utf16Units_lt_of_two_le hsize
        have h2 := utf16_sum_le_utf8LenL l
        simp only [utf8LenL] at h2
        omega
      · have h1 := utf16Units_le_utf8Size a
        have h2 := ih ⟨c, hmem, hsize⟩
        simp only [utf8LenL] at h2
        omega

theorem getByteSize_vstr (s : String) : getByteSize (.vstr s) = utf8Len s := by
  by_cases h : s = ""
  · subst h; simp [getByteSize, truthy, utf8Len, utf8LenL]
  · simp [getByteSize, truthy, h]

theorem getCharacterCount_vstr (s : String) : getCharacterCount (.vstr s) = utf16Len s := by
  by_cases h : s = ""
  · subst h; simp [getCharacterCount, truthy, utf16Len]
  · simp [getCharacterCount, truthy, h]

/-- C5: `byteSize` is 0 for empty/absent values and the UTF-8 byte count for
plain strings, `characterCount` is the native (UTF-16 code unit) length;
whenever a string contains a multi-byte character its byte size strictly
exceeds its character count, and a single 3-byte character (here U+20AC)
measures byteSize 3 and characterCount 1. -/
theorem byteSize_characterCount_spec :
    (getByteSize .vnull = 0 ∧ getByteSize .vundef = 0 ∧ getByteSize (.vstr "") = 0 ∧
     getCharacterCount .vnull = 0 ∧ getCharacterCount (.vstr "") = 0) ∧
    (∀ s : String, getByteSize (.vstr s) = utf8Len s ∧
      getCharacterCount (.vstr s) = utf16Len s) ∧
    (∀ s : String, (∃ c ∈ s.data, 2 ≤ c.utf8Size) →
      getCharacterCount (.vstr s) < getByteSize (.vstr s)) ∧
    (getByteSize (.vstr "€") = 3 ∧ getCharacterCount (.vstr "€") = 1) := by
  refine ⟨⟨rfl, rfl, rfl, rfl, rfl⟩, fun s => ⟨getByteSize_vstr s, getCharacterCount_vstr s⟩,
    fun s h => ?_, by decide, by decide⟩
  rw [getByteSize_vstr, getCharacterCount_vstr]
  exact utf16_sum_lt_utf8LenL s.data h

/-- C5 witness: the inequality instantiated at the 3-byte character U+20AC. -/
theorem byteSize_characterCount_spec_witness :
    getCharacterCount (.vstr "€") < getByteSize (.vstr "€") :=
  byteSize_characterCount_spec.2.2.1 "€" ⟨'€', by decide, by decide⟩

/-- C1 counterexample: an entry of 1,800,000 bytes is 85.8 % of the 2,097,152
byte limit, so the code classifies it in the warning band, not the caution
band the claim asserts. -/
theorem usageBand_1800000_not_caution :
    usageBand 1800000 = Band.warning ∧ Band.warning ≠ Band.caution := by
  exact ⟨by decide, by decide⟩

/-- C1 (amended): with the limit fixed at 2,097,152 bytes the classification
assigns 1,800,000 bytes and 1,900,000 bytes to the warning band and 1,000,000
bytes to the safe band; for every integer size the code's binary64 threshold
comparison agrees with the exact band definition (strictly above 80 % of the
limit warning, strictly above 60 % caution, otherwise safe). -/
theorem usageBand_spec :
    usageBand 1800000 = Band.warning ∧ usageBand 1900000 = Band.warning ∧
    usageBand 1000000 = Band.safe ∧
    ∀ size : Nat, usageBand size =
      (if 4 * twoMBInBytes < 5 * size then Band.warning
       else if 3 * twoMBInBytes < 5 * size then Band.caution
       else Band.safe) := by
  refine ⟨by decide, by decide, by decide, fun size => ?_⟩
  by_cases h1 : 4 * twoMBInBytes < 5 * size
  · have hA : 7205759403792794 < 4294967296 * size := by
      simp only [twoMBInBytes] at h1; omega
    simp [usageBand, hA, h1]
  · by_cases h2 : 3 * twoMBInBytes < 5 * size
    · have hA : ¬ 7205759403792794 < 4294967296 * size := by
        simp only [twoMBInBytes] at h1; omega
      have hB : 5404319552844595 < 4294967296 * size := by
        simp only [twoMBInBytes] at h2; omega
      simp [usageBand, hA, hB, h1, h2]
    · have hA : ¬ 7205759403792794 < 4294967296 * size := by
        simp only [twoMBInBytes] at h1; omega
      have hB : ¬ 5404319552844595 < 4294967296 * size := by
        simp only [twoMBInBytes] at h2; omega
      simp [usageBand, hA, hB, h1, h2]

/-- Unfolds the rich-branch of the overhead analyzer for an object whose
walk succeeds, exposing the computed record. -/
theorem analyzeContentOverhead_vobj (fs : JsFields) (s : String)
    (h : traverse (.vobj fs) = .ok s) :
    analyzeContentOverhead (.vobj fs) =
      .ok ⟨utf8Len ((stringifyVal (.vobj fs)).getD ""), utf8Len s,
           (utf8Len ((stringifyVal (.vobj fs)).getD "") : Int) - (utf8Len s : Int),
           if 0 < utf8Len ((stringifyVal (.vobj fs)).getD "") then
             roundTenths
               ((((utf8Len ((stringifyVal (.vobj fs)).getD "") : Int) - (utf8Len s : Int) : Int) : ℚ) /
                 (utf8Len ((stringifyVal (.vobj fs)).getD "") : ℚ) * 100)
           else 0⟩ := by
  simp [analyzeContentOverhead, extractPlainTextFromRichText, truthy, isObjectType, h]

theorem aco_vobj_nil_eval : analyzeContentOverhead (.vobj .nil) = .ok ⟨2, 0, 2, 100⟩ := by
  have hlen : utf8Len ((stringifyVal (JsValue.vobj .nil)).getD "") = 2 := by decide
  have hs : utf8Len "" = 0 := rfl
  rw [analyzeContentOverhead_vobj .nil "" rfl, hlen, hs]
  norm_num [roundTenths, Int.floor_eq_iff]

/-- C2: the overhead analyzer returns all-zero fields on empty/absent
(falsy) input, `contentSize = totalSize` and zero overhead on every plain
string, and on every rich (object) value whose analysis returns, the exact
identity `totalSize = contentSize + overheadSize`. -/
theorem analyzeContentOverhead_spec :
    (∀ v : JsValue, truthy v = false → analyzeContentOverhead v = .ok ⟨0, 0, 0, 0⟩) ∧
    (∀ (s : String) (r : OverheadResult), analyzeContentOverhead (.vstr s) = .ok r →
      r.contentSize = r.totalSize ∧ r.overheadSize = 0) ∧
    (∀ (v : JsValue) (r : OverheadResult), truthy v = true → isObjectType v = true →
      analyzeContentOverhead v = .ok r →
      (r.totalSize : Int) = (r.contentSize : Int) + r.overheadSize) := by
  refine ⟨fun v h => by simp [analyzeContentOverhead, h], fun s r h => ?_, fun v r h1 h2 h => ?_⟩
  · by_cases hs : s = ""
    · subst hs
      simp only [analyzeContentOverhead, truthy] at h
      simp only [show ("" != "") = false from rfl, if_pos rfl] at h
      cases h
      exact ⟨rfl, rfl⟩
    · simp only [analyzeContentOverhead, truthy] at h
      rw [if_neg (by simp [hs])] at h
      cases h
      exact ⟨rfl, rfl⟩
  · cases v with
    | vnull => simp [truthy] at h1
    | vobj fs =>
        cases hE : extractPlainTextFromRichText (.vobj fs) with
        | error e => simp [analyzeContentOverhead, truthy, hE] at h
        | ok plain =>
            simp only [analyzeContentOverhead, truthy, Bool.false_eq_true, if_false, hE] at h
            cases h
            dsimp only
            omega
    | varr xs =>
        cases hE : extractPlainTextFromRichText (.varr xs) with
        | error e => simp [analyzeContentOverhead, truthy, hE] at h
        | ok plain =>
            simp only [analyzeContentOverhead, truthy, Bool.false_eq_true, if_false, hE] at h
            cases h
            dsimp only
            omega
    | vundef => simp [truthy] at h1
    | vbool b => simp [isObjectType] at h2
    | vnum n => simp [isObjectType] at h2
    | vstr s => simp [isObjectType] at h2

/-- C2 witness: the three branches at concrete inputs: `null`, the plain
string `"hi"`, and the empty rich object. -/
theorem analyzeContentOverhead_spec_witness :
    analyzeContentOverhead .vnull = .ok ⟨0, 0, 0, 0⟩ ∧
    (OverheadResult.contentSize ⟨2, 2, 0, 0⟩ = OverheadResult.totalSize ⟨2, 2, 0, 0⟩ ∧
      OverheadResult.overheadSize ⟨2, 2, 0, 0⟩ = 0) ∧
    ((OverheadResult.totalSize ⟨2, 0, 2, 100⟩ : Int) =
      (OverheadResult.contentSize ⟨2, 0, 2, 100⟩ : Int) + OverheadResult.overheadSize ⟨2, 0, 2, 100⟩) :=
  ⟨analyzeContentOverhead_spec.1 .vnull rfl,
   analyzeContentOverhead_spec.2.1 "hi" ⟨2, 2, 0, 0⟩ rfl,
   analyzeContentOverhead_spec.2.2 (.vobj .nil) ⟨2, 0, 2, 100⟩ rfl rfl aco_vobj_nil_eval⟩

/-- C10: when the configured field id has no binding in the entry's field
map, the analysis stops with the distinct `missingField` error and produces
no report, whatever the locale list or sort order. -/
theorem missingField_spec :
    ∀ (sortLocales : List Locale → List Locale) (locales : List Locale)
      (entryFields : JsFields) (contentFieldId : String),
      lookupField entryFields contentFieldId = none →
      analyzeEntryContentSizes sortLocales locales entryFields contentFieldId =
        .error .missingField := by
  intro sortFn locales fs fid h
  simp [analyzeEntryContentSizes, h, truthy]

/-- C10 witness: an entry with only a `title` field, analyzed for the
`content` field. -/
theorem missingField_spec_witness :
    analyzeEntryContentSizes id [] (.cons "title" (.vobj .nil) .nil) "content" =
      .error .missingField :=
  missingField_spec id [] (.cons "title" (.vobj .nil) .nil) "content" rfl

/-- C6: the per-locale loop's `hasContent` is exactly the truthiness of the
locale's raw value, and every running total is the exact sum, over the
emitted results with `hasContent = true`, of the corresponding per-locale
quantity — in particular the reported total size is the exact sum of
`sizeInBytes` over the locales with content. -/
theorem localeFold_totals :
    (∀ (cf : JsValue) (loc : Locale) (r : LocaleResult),
       processLocale cf loc = .ok r →
       r.hasContent = truthy (jsMember cf loc.code) ∧
       r.sizeInBytes = getByteSize (jsMember cf loc.code)) ∧
    (∀ (cf : JsValue) (ls : List Locale) (rs : List LocaleResult) (t : Totals),
       localeFold cf ls = .ok (rs, t) →
       t.totalSize = ((rs.filter (fun r => r.hasContent)).map (fun r => r.sizeInBytes)).sum ∧
       t.totalCharacters =
         ((rs.filter (fun r => r.hasContent)).map (fun r => r.characterCount)).sum ∧
       t.totalContentSize =
         ((rs.filter (fun r => r.hasContent)).map (fun r => r.overheadAnalysis.contentSize)).sum ∧
       t.totalOverheadSize =
         ((rs.filter (fun r => r.hasContent)).map (fun r => r.overheadAnalysis.overheadSize)).sum ∧
       t.localesWithContent = (rs.filter (fun r => r.hasContent)).length) := by
  constructor
  · intro cf loc r h
    unfold processLocale at h
    dsimp only at h
    cases hA : analyzeContentOverhead (jsMember cf loc.code) with
    | error e => rw [hA] at h; cases h
    | ok o => rw [hA] at h; cases h; exact ⟨rfl, rfl⟩
  · intro cf ls
    induction ls with
    | nil =>
        intro rs t h
        cases h
        simp
    | cons loc rest ih =>
        intro rs t h
        unfold localeFold at h
        cases hP : processLocale cf loc with
        | error e => rw [hP] at h; cases h
        | ok r =>
            rw [hP] at h
            cases hF : localeFold cf rest with
            | error e => rw [hF] at h; cases h
            | ok p =>
                obtain ⟨rs', t'⟩ := p
                rw [hF] at h
                cases h
                obtain ⟨ih1, ih2, ih3, ih4, ih5⟩ := ih rs' t' hF
                cases hcb : r.hasContent with
                | true =>
                    simp [addTotals, hcb, List.filter_cons, ih1, ih2, ih3, ih4, ih5]
                | false =>
                    simp [addTotals, hcb, List.filter_cons, ih1, ih2, ih3, ih4, ih5]

/-- Concrete aggregator example: one locale with a plain-string value, one
locale without content. -/
def exContentField : JsValue := .vobj (.cons "en" (.vstr "hi") .nil)

def exLocales : List Locale := [⟨"en", "English"⟩, ⟨"fr", "French"⟩]

def exResults : List LocaleResult :=
  [⟨"en", "English", 2, 2, ⟨2, 2, 0, 0⟩, true⟩,
   ⟨"fr", "French", 0, 0, ⟨0, 0, 0, 0⟩, false⟩]

def exTotals : Totals := ⟨2, 2, 2, 0, 1⟩

/-- C6 witness: the totals identity evaluated on the concrete two-locale
example. -/
theorem localeFold_totals_witness :
    exTotals.totalSize =
      ((exResults.filter (fun r => r.hasContent)).map (fun r => r.sizeInBytes)).sum :=
  (localeFold_totals.2 exContentField exLocales exResults exTotals rfl).1

/-- `Object.keys`: the field ids in insertion order. -/
def jsKeys : JsFields → List String
  | .nil => []
  | .cons k _ rest => k :: jsKeys rest

theorem insertBySizeDesc_perm (x : String × Nat) (l : List (String × Nat)) :
    List.Perm (insertBySizeDesc x l) (x :: l) := by
  induction l with
  | nil => exact List.Perm.refl _
  | cons y ys ih =>
      unfold insertBySizeDesc
      by_cases h : x.2 ≤ y.2
      · rw [if_pos h]
        exact ((ih.cons y).trans (List.Perm.swap x y ys)).symm.symm
      · rw [if_neg h]

theorem foldl_insertBySizeDesc_perm (l : List (String × Nat)) :
    ∀ acc : List (String × Nat),
      List.Perm (l.foldl (fun acc x => insertBySizeDesc x acc) acc) (l ++ acc) := by
  induction l with
  | nil => intro acc; simp
  | cons x xs ih =>
      intro acc
      have h1 := ih (insertBySizeDesc x acc)
      have h2 : List.Perm (xs ++ insertBySizeDesc x acc) (xs ++ (x :: acc)) :=
        List.Perm.append_left xs (insertBySizeDesc_perm x acc)
      have h3 : List.Perm (xs ++ (x :: acc)) (x :: (xs ++ acc)) := List.perm_middle
      exact (h1.trans h2).trans h3

theorem sortBySizeDesc_perm (l : List (String × Nat)) :
    List.Perm (sortBySizeDesc l) l := by
  have h := foldl_insertBySizeDesc_perm l []
  simpa [sortBySizeDesc] using h

theorem insertBySizeDesc_sorted (x : String × Nat) (l : List (String × Nat))
    (h : List.Pairwise (fun a b : String × Nat => b.2 ≤ a.2) l) :
    List.Pairwise (fun a b : String × Nat => b.2 ≤ a.2) (insertBySizeDesc x l) := by
  induction l with
  | nil => simp [insertBySizeDesc]
  | cons y ys ih =>
      rw [List.pairwise_cons] at h
      obtain ⟨hy, hys⟩ := h
      unfold insertBySizeDesc
      by_cases hxy : x.2 ≤ y.2
      · rw [if_pos hxy]
        rw [List.pairwise_cons]
        refine ⟨fun z hz => ?_, ih hys⟩
        rcases List.mem_cons.mp ((insertBySizeDesc_perm x ys).mem_iff.mp hz) with rfl | hzys
        · exact hxy
        · exact hy z hzys
      · rw [if_neg hxy]
        rw [List.pairwise_cons]
        refine ⟨fun z hz => ?_, by rw [List.pairwise_cons]; exact ⟨hy, hys⟩⟩
        rcases List.mem_cons.mp hz with rfl | hzys
        · omega
        · have := hy z hzys
          omega

theorem sortBySizeDesc_sorted (l : List (String × Nat)) :
    List.Pairwise (fun a b : String × Nat => b.2 ≤ a.2) (sortBySizeDesc l) := by
  have main : ∀ (l acc : List (String × Nat)),
      List.Pairwise (fun a b : String × Nat => b.2 ≤ a.2) acc →
      List.Pairwise (fun a b : String × Nat => b.2 ≤ a.2)
        (l.foldl (fun acc x => insertBySizeDesc x acc) acc) := by
    intro l
    induction l with
    | nil => intro acc h; exact h
    | cons x xs ih => intro acc h; exact ih _ (insertBySizeDesc_sorted x acc h)
  exact main l [] (by simp)

theorem insertBySizeDesc_filter (x : String × Nat) (l : List (String × Nat)) (n : Nat)
    (h : List.Pairwise (fun a b : String × Nat => b.2 ≤ a.2) l) :
    (insertBySizeDesc x l).filter (fun p => p.2 == n) =
      l.filter (fun p => p.2 == n) ++ (if x.2 == n then [x] else []) := by
  induction l with
  | nil =>
      simp only [insertBySizeDesc, List.filter_nil, List.nil_append]
      by_cases hx : x.2 = n
      · simp [hx]
      · simp [List.filter_cons, hx]
  | cons y ys ih =>
      rw [List.pairwise_cons] at h
      obtain ⟨hy, hys⟩ := h
      unfold insertBySizeDesc
      by_cases hxy : x.2 ≤ y.2
      · rw [if_pos hxy]
        rw [List.filter_cons, List.filter_cons]
        by_cases hyn : y.2 = n
        · simp only [hyn, beq_self_eq_true, if_pos, ih hys, List.cons_append]
        · simp only [show (y.2 == n) = false by simp [hyn], Bool.false_eq_true, if_false,
            ih hys]
      · rw [if_neg hxy]
        rw [List.filter_cons]
        by_cases hxn : x.2 = n
        · have hnil : (y :: ys).filter (fun p => p.2 == n) = [] := by
            rw [List.filter_eq_nil_iff]
            intro z hz
            rcases List.mem_cons.mp hz with rfl | hzys
            · simp; omega
            · have := hy z hzys
              simp
              omega
          simp [hnil, hxn]
        · simp [show (x.2 == n) = false by simp [hxn]]

theorem sortBySizeDesc_filter (l : List (String × Nat)) (n : Nat) :
    (sortBySizeDesc l).filter (fun p => p.2 == n) = l.filter (fun p => p.2 == n) := by
  have main : ∀ (l acc : List (String × Nat)),
      List.Pairwise (fun a b : String × Nat => b.2 ≤ a.2) acc →
      (l.foldl (fun acc x => insertBySizeDesc x acc) acc).filter (fun p => p.2 == n) =
        acc.filter (fun p => p.2 == n) ++ l.filter (fun p => p.2 == n) := by
    intro l
    induction l with
    | nil => intro acc h; simp
    | cons x xs ih =>
        intro acc h
        have step := ih (insertBySizeDesc x acc) (insertBySizeDesc_sorted x acc h)
        calc ((x :: xs).foldl (fun acc x => insertBySizeDesc x acc) acc).filter
              (fun p => p.2 == n)
            = (xs.foldl (fun acc x => insertBySizeDesc x acc)
                (insertBySizeDesc x acc)).filter (fun p => p.2 == n) := rfl
          _ = (insertBySizeDesc x acc).filter (fun p => p.2 == n) ++
                xs.filter (fun p => p.2 == n) := step
          _ = (acc.filter (fun p => p.2 == n) ++ (if x.2 == n then [x] else [])) ++
                xs.filter (fun p => p.2 == n) := by
                rw [insertBySizeDesc_filter x acc n h]
          _ = acc.filter (fun p => p.2 == n) ++
                ((if x.2 == n then [x] else []) ++ xs.filter (fun p => p.2 == n)) := by
                rw [List.append_assoc]
          _ = acc.filter (fun p => p.2 == n) ++ (x :: xs).filter (fun p => p.2 == n) := by
                rw [List.filter_cons]
                by_cases hx : x.2 = n
                · simp [hx]
                · simp [show (x.2 == n) = false by simp [hx]]
  have h := main l [] (by simp)
  simpa [sortBySizeDesc] using h

theorem fieldSizesE_keys :
    ∀ (fs : JsFields) (sizes : List (String × Nat)), fieldSizesE fs = .ok sizes →
      sizes.map Prod.fst = jsKeys fs
  | .nil, sizes, h => by cases h; rfl
  | .cons k v rest, sizes, h => by
      unfold fieldSizesE at h
      cases hS : stringifyVal v with
      | none => rw [hS] at h; cases h
      | some j =>
          rw [hS] at h
          cases hR : fieldSizesE rest with
          | error e => rw [hR] at h; cases h
          | ok l =>
              rw [hR] at h
              cases h
              simp [jsKeys, fieldSizesE_keys rest l hR]

/-- C9 (amended): the per-field breakdown pairs every field id of the entry
(in insertion order, before sorting) with the byte length of its all-locales
serialization, and the emitted list is a permutation of those pairs sorted
descending by size — with ties left in the entry's original field order
(stable sort), not re-ordered by field id. -/
theorem fieldBreakdown_spec :
    ∀ (entryFields : JsFields) (sizes : List (String × Nat)),
      fieldSizesE entryFields = .ok sizes →
      sizes.map Prod.fst = jsKeys entryFields ∧
      List.Perm (sortBySizeDesc sizes) sizes ∧
      List.Pairwise (fun a b : String × Nat => b.2 ≤ a.2) (sortBySizeDesc sizes) ∧
      ∀ n : Nat, (sortBySizeDesc sizes).filter (fun p => p.2 == n) =
        sizes.filter (fun p => p.2 == n) :=
  fun fs sizes h =>
    ⟨fieldSizesE_keys fs sizes h, sortBySizeDesc_perm sizes, sortBySizeDesc_sorted sizes,
     fun n => sortBySizeDesc_filter sizes n⟩

/-- Entry with two equal-sized fields in non-alphabetical insertion order. -/
def exEntryFields : JsFields :=
  .cons "b" (.vobj (.cons "en" (.vstr "x") .nil))
    (.cons "a" (.vobj (.cons "en" (.vstr "x") .nil)) .nil)

/-- Code-point lexicographic comparison of character lists. -/
def lexLt : List Char → List Char → Bool
  | [], [] => false
  | [], _ :: _ => true
  | _ :: _, [] => false
  | a :: as, b :: bs =>
      if a.toNat < b.toNat then true
      else if b.toNat < a.toNat then false
      else lexLt as bs

/-- Code-point (case-sensitive) lexicographic order on strings. -/
def strLexLt (a b : String) : Bool := lexLt a.data b.data

/-- Modelled from the spec's words: sorted descending by size with ties
broken by field-id ascending lexical order. -/
def insertSpecOrder (x : String × Nat) : List (String × Nat) → List (String × Nat)
  | [] => [x]
  | y :: ys =>
      if y.2 < x.2 || (y.2 == x.2 && strLexLt x.1 y.1) then x :: y :: ys
      else y :: insertSpecOrder x ys

/-- Modelled from the spec's words: the tie-lexicographic sort the claim
describes. -/
def sortSpecDescLexTies (l : List (String × Nat)) : List (String × Nat) :=
  l.foldl (fun acc x => insertSpecOrder x acc) []

/-- C9 counterexample: the entry `exEntryFields` lists field "b" before "a",
both serializing to 10 bytes; the code's stable sort emits ("b", then "a"),
while the claim's field-id-ascending tie-break demands ("a", then "b"). -/
theorem fieldBreakdown_tie_counterexample :
    fieldSizesE exEntryFields = .ok [("b", 10), ("a", 10)] ∧
    sortBySizeDesc [("b", 10), ("a", 10)] = [("b", 10), ("a", 10)] ∧
    sortSpecDescLexTies [("b", 10), ("a", 10)] = [("a", 10), ("b", 10)] ∧
    sortBySizeDesc [("b", 10), ("a", 10)] ≠ sortSpecDescLexTies [("b", 10), ("a", 10)] := by
  refine ⟨rfl, rfl, rfl, by decide⟩

/-- C9 witness: the breakdown identities evaluated on the concrete entry. -/
theorem fieldBreakdown_spec_witness :
    ([("b", 10), ("a", 10)] : List (String × Nat)).map Prod.fst = jsKeys exEntryFields :=
  (fieldBreakdown_spec exEntryFields [("b", 10), ("a", 10)] rfl).1

theorem valuePart_toJs (v : Option String) : valuePart (v.map JsValue.vstr) = v.getD "" := by
  cases v with
  | none => rfl
  | some s =>
      by_cases hs : s = ""
      · subst hs; rfl
      · simp [valuePart, truthy, jsToString, hs]

theorem lookupField_toJsFields_value (v : Option String) (c : ContentOpt) :
    lookupField (toJsFields v c) "value" = v.map JsValue.vstr := by
  cases v <;> cases c <;> simp [toJsFields, contentFieldsOf, lookupField]

theorem traverseContent_toJsFields (v : Option String) (c : ContentOpt) :
    traverseContent (toJsFields v c) =
      (match c with
       | .none => Except.ok ""
       | .some l => traverseArr (toJsArr l)) := by
  cases v <;> cases c <;> simp [toJsFields, contentFieldsOf, traverseContent]

mutual
/-- On every data-model rich document, the source's walker returns exactly
the depth-first pre-order concatenation of the `value` fields. -/
theorem traverse_toJs : ∀ d : RichDoc, traverse (toJs d) = .ok (richDocText d)
  | .mk v c => by
      rw [show toJs (.mk v c) = .vobj (toJsFields v c) by rw [toJs]]
      cases c with
      | none =>
          simp [traverse, traverseContent_toJsFields, richDocText, contentText,
            lookupField_toJsFields_value, valuePart_toJs]
      | some l =>
          have h := traverseArr_toJsArr l
          simp [traverse, traverseContent_toJsFields, h, richDocText, contentText,
            lookupField_toJsFields_value, valuePart_toJs]

theorem traverseArr_toJsArr : ∀ l : DocList, traverseArr (toJsArr l) = .ok (docListText l)
  | .nil => by simp [toJsArr, traverseArr, docListText]
  | .cons d rest => by
      have h1 := traverse_toJs d
      have h2 := traverseArr_toJsArr rest
      simp [toJsArr, traverseArr, h1, h2, docListText]
end

/-- The rich-text example `\x7b content: [\x7b value:"a" \x7d,
\x7b content: [\x7b value:"b" \x7d] \x7d] \x7d`. -/
def exDocAB : JsValue :=
  .vobj (.cons "content"
    (.varr (.cons (.vobj (.cons "value" (.vstr "a") .nil))
      (.cons (.vobj (.cons "content"
        (.varr (.cons (.vobj (.cons "value" (.vstr "b") .nil)) .nil)) .nil)) .nil))) .nil)

/-- C3: on every rich-document tree the extractor returns the depth-first
pre-order concatenation of the leaf `value` strings; the two-leaf example
yields `"ab"` and the empty document yields `""`. -/
theorem extractPlainText_spec :
    (∀ d : RichDoc, extractPlainTextFromRichText (toJs d) = .ok (richDocText d)) ∧
    extractPlainTextFromRichText exDocAB = .ok "ab" ∧
    extractPlainTextFromRichText (toJs (.mk Option.none .none)) = .ok "" := by
  have main : ∀ d : RichDoc, extractPlainTextFromRichText (toJs d) = .ok (richDocText d) := by
    intro d
    cases d with
    | mk v c =>
        have h := traverse_toJs (.mk v c)
        rw [show toJs (.mk v c) = .vobj (toJsFields v c) by rw [toJs]] at h ⊢
        simpa [extractPlainTextFromRichText, truthy, isObjectType] using h
  refine ⟨main, rfl, ?_⟩
  rw [main (.mk Option.none .none)]
  rw [show richDocText (.mk Option.none .none) = "" by
    rw [richDocText]; simp [contentText]]

mutual
/-- Safety predicate for the walker: a traversed value is safe unless some
element of a (first) `content` array — recursively — is `null`/`undefined`,
the only shapes whose property access throws. -/
def safeNode : JsValue → Bool
  | .vnull => false
  | .vundef => false
  | .vobj fs => safeContent fs
  | _ => true

def safeContent : JsFields → Bool
  | .nil => true
  | .cons k v rest =>
      if k = "content" then
        (match v with
         | .varr xs => safeArr xs
         | _ => true)
      else safeContent rest

def safeArr : JsArr → Bool
  | .nil => true
  | .cons v rest => safeNode v && safeArr rest
end

mutual
theorem traverse_ok_of_safe : ∀ v : JsValue, safeNode v = true → ∃ s, traverse v = .ok s
  | .vnull, h => nomatch h
  | .vundef, h => nomatch h
  | .vbool _, _ => ⟨"", rfl⟩
  | .vnum _, _ => ⟨"", rfl⟩
  | .vstr _, _ => ⟨"", rfl⟩
  | .varr _, _ => ⟨"", rfl⟩
  | .vobj fs, h => by
      obtain ⟨s, hs⟩ := traverseContent_ok_of_safe fs h
      exact ⟨valuePart (lookupField fs "value") ++ s, by simp [traverse, hs]⟩

theorem traverseContent_ok_of_safe :
    ∀ fs : JsFields, safeContent fs = true → ∃ s, traverseContent fs = .ok s
  | .nil, _ => ⟨"", rfl⟩
  | .cons k v rest, h => by
      unfold safeContent at h
      unfold traverseContent
      by_cases hk : k = "content"
      · rw [if_pos hk] at h ⊢
        cases v with
        | varr xs => exact traverseArr_ok_of_safe xs h
        | vnull => exact ⟨"", rfl⟩
        | vundef => exact ⟨"", rfl⟩
        | vbool b => exact ⟨"", rfl⟩
        | vnum n => exact ⟨"", rfl⟩
        | vstr s => exact ⟨"", rfl⟩
        | vobj fs2 => exact ⟨"", rfl⟩
      · rw [if_neg hk] at h ⊢
        exact traverseContent_ok_of_safe rest h

theorem traverseArr_ok_of_safe :
    ∀ xs : JsArr, safeArr xs = true → ∃ s, traverseArr xs = .ok s
  | .nil, _ => ⟨"", rfl⟩
  | .cons v rest, h => by
      rw [safeArr, Bool.and_eq_true] at h
      obtain ⟨s1, h1⟩ := traverse_ok_of_safe v h.1
      obtain ⟨s2, h2⟩ := traverseArr_ok_of_safe rest h.2
      exact ⟨s1 ++ s2, by simp [traverseArr, h1, h2]⟩
end

/-- C4 counterexample: a `content` array holding `null` makes the walker
dereference `null.value`, a thrown `TypeError` — the extractor is not total
on arbitrary inputs. -/
theorem extractor_raises_on_null_child :
    extractPlainTextFromRichText (.vobj (.cons "content" (.varr (.cons .vnull .nil)) .nil)) =
      .error () := rfl

/-- C4 (amended): the extractor returns a string on every input except those
in which some traversed `content` array element is `null`/`undefined`: every
non-object or falsy input, node without `value`/`content`, non-array
`content`, and primitive/array child contributes no failure (and no text for
unrecognized shapes); only a null/undefined child position raises. -/
theorem extractor_total_spec :
    ∀ v : JsValue, ((truthy v && isObjectType v) = false ∨ safeNode v = true) →
      ∃ s, extractPlainTextFromRichText v = .ok s := by
  intro v h
  unfold extractPlainTextFromRichText
  cases hg : truthy v && isObjectType v with
  | false => exact ⟨"", by simp⟩
  | true =>
      rcases h with h | h
      · rw [hg] at h; cases h
      · simpa using traverse_ok_of_safe v h

/-- C4 witness: a thoroughly malformed but null-free node — a non-array
`content`, a numeric `value` — extracts without raising. -/
theorem extractor_total_spec_witness :
    ∃ s, extractPlainTextFromRichText
      (.vobj (.cons "content" (.vstr "oops") (.cons "value" (.vnum 5) .nil))) = .ok s :=
  extractor_total_spec (.vobj (.cons "content" (.vstr "oops") (.cons "value" (.vnum 5) .nil)))
    (Or.inr rfl)

theorem char_le_lit_of_toNat_le {c : Char} {m : Nat} (hp : m < 4294967296)
    (h : c.toNat ≤ m) : c.val ≤ UInt32.ofNatCore m hp := by
  apply (UInt32.le_def (a := c.val) (b := UInt32.ofNatCore m hp)).mpr
  apply BitVec.le_def.mpr
  simpa [Char.toNat, UInt32.toNat, UInt32.ofNatCore, BitVec.ofNatLt] using h

theorem utf8Size_eq_one_of_lt32 {c : Char} (h : c.toNat < 32) : c.utf8Size = 1 := by
  unfold Char.utf8Size
  dsimp only
  rw [if_pos (char_le_lit_of_toNat_le (by omega) (by omega : c.toNat ≤ 127))]

/-- Escaping a character inside a JSON string never shrinks its byte size. -/
theorem utf8Size_le_jsonEscapeChar (c : Char) : c.utf8Size ≤ utf8LenL (jsonEscapeChar c) := by
  unfold jsonEscapeChar
  by_cases h1 : c = '"'
  · subst h1; rw [if_pos rfl]; decide
  · rw [if_neg h1]
    by_cases h2 : c = '\\'
    · subst h2; rw [if_pos rfl]; decide
    · rw [if_neg h2]
      by_cases h3 : c = '\n'
      · subst h3; rw [if_pos rfl]; decide
      · rw [if_neg h3]
        by_cases h4 : c = '\r'
        · subst h4; rw [if_pos rfl]; decide
        · rw [if_neg h4]
          by_cases h5 : c = '\t'
          · subst h5; rw [if_pos rfl]; decide
          · rw [if_neg h5]
            by_cases h6 : c = '\x08'
            · subst h6; rw [if_pos rfl]; decide
            · rw [if_neg h6]
              by_cases h7 : c = '\x0c'
              · subst h7; rw [if_pos rfl]; decide
              · rw [if_neg h7]
                by_cases h8 : c.toNat < 32
                · rw [if_pos h8, utf8Size_eq_one_of_lt32 h8]
                  have hb : ('\\').utf8Size = 1 := by decide
                  simp only [utf8LenL, List.map_cons, List.sum_cons, hb]
                  omega
                · rw [if_neg h8]
                  simp [utf8LenL]

theorem utf8LenL_le_flatten_escape (l : List Char) :
    utf8LenL l ≤ utf8LenL ((l.map jsonEscapeChar).flatten) := by
  induction l with
  | nil => simp [utf8LenL]
  | cons a l ih =>
      have ha : a.utf8Size ≤ (List.map Char.utf8Size (jsonEscapeChar a)).sum := by
        simpa [utf8LenL] using utf8Size_le_jsonEscapeChar a
      simp only [List.map_cons, List.flatten_cons]
      rw [utf8LenL_append]
      simp only [utf8LenL, List.map_cons, List.sum_cons] at ih ⊢
      omega

/-- The JSON string literal for `s` is at least as long (in UTF-8 bytes) as
`s` itself. -/
theorem utf8Len_le_jsonQuote (s : String) : utf8Len s ≤ utf8Len (jsonQuote s) := by
  unfold jsonQuote
  rw [utf8Len_append, utf8Len_append]
  have h2 := utf8LenL_le_flatten_escape s.data
  have h3 : utf8Len (String.mk ((s.data.map jsonEscapeChar).flatten)) =
      utf8LenL ((s.data.map jsonEscapeChar).flatten) := rfl
  have h4 : utf8Len s = utf8LenL s.data := rfl
  omega

theorem sum_utf8Len_le_commaJoin :
    ∀ parts : List String, (parts.map utf8Len).sum ≤ utf8Len (commaJoin parts)
  | [] => by simp [commaJoin, utf8Len, utf8LenL]
  | [s] => by simp [commaJoin]
  | s :: t :: ts => by
      have ih := sum_utf8Len_le_commaJoin (t :: ts)
      have hc : commaJoin (s :: t :: ts) = s ++ "," ++ commaJoin (t :: ts) := rfl
      rw [hc, utf8Len_append, utf8Len_append]
      simp only [List.map_cons, List.sum_cons] at ih ⊢
      omega

mutual
/-- Serializing a data-model rich document yields a JSON string at least as
large (in UTF-8 bytes) as the document's extracted plain text: every `value`
appears (escaped, hence no smaller) inside the serialization. -/
theorem doc_stringify_le : ∀ d : RichDoc,
    ∃ j, stringifyVal (toJs d) = some j ∧ utf8Len (richDocText d) ≤ utf8Len j
  | .mk v c => by
      rw [show toJs (.mk v c) = .vobj (toJsFields v c) by rw [toJs]]
      refine ⟨"\x7b" ++ commaJoin (objParts (toJsFields v c)) ++ "\x7d",
        by rw [stringifyVal], ?_⟩
      have hparts := sum_utf8Len_le_commaJoin (objParts (toJsFields v c))
      have hrt : richDocText (.mk v c) = v.getD "" ++ contentText c := by rw [richDocText]
      rw [hrt]
      simp only [utf8Len_append]
      have hcontent : utf8Len (contentText c) ≤
          ((objParts (contentFieldsOf c)).map utf8Len).sum := by
        cases c with
        | none =>
            rw [show contentText ContentOpt.none = "" by rw [contentText]]
            simp [contentFieldsOf, objParts, utf8Len, utf8LenL]
        | some l =>
            rw [show contentText (ContentOpt.some l) = docListText l by rw [contentText]]
            have hl := docList_stringify_le l
            have hobj : objParts (contentFieldsOf (ContentOpt.some l)) =
                [jsonQuote "content" ++ ":" ++
                  ("[" ++ commaJoin (arrParts (toJsArr l)) ++ "]")] := by
              simp [contentFieldsOf, objParts, stringifyVal]
            rw [hobj]
            have harr := sum_utf8Len_le_commaJoin (arrParts (toJsArr l))
            simp only [List.map_cons, List.map_nil, List.sum_cons, List.sum_nil,
              utf8Len_append]
            omega
      cases v with
      | none =>
          have hval : objParts (toJsFields Option.none c) = objParts (contentFieldsOf c) := by
            rw [toJsFields]
          rw [hval] at hparts ⊢
          have hgd : utf8Len (Option.getD Option.none "") = 0 := rfl
          omega
      | some s =>
          have hval : objParts (toJsFields (Option.some s) c) =
              (jsonQuote "value" ++ ":" ++ jsonQuote s) :: objParts (contentFieldsOf c) := by
            rw [toJsFields]
            simp [objParts, stringifyVal]
          rw [hval] at hparts ⊢
          simp only [List.map_cons, List.sum_cons] at hparts
          have hq := utf8Len_le_jsonQuote s
          have hqv : utf8Len (jsonQuote "value" ++ ":" ++ jsonQuote s) =
              utf8Len (jsonQuote "value") + utf8Len ":" + utf8Len (jsonQuote s) := by
            rw [utf8Len_append, utf8Len_append]
          have hgd : utf8Len (Option.getD (Option.some s) "") = utf8Len s := rfl
          omega

theorem docList_stringify_le : ∀ l : DocList,
    utf8Len (docListText l) ≤ ((arrParts (toJsArr l)).map utf8Len).sum
  | .nil => by
      rw [show docListText DocList.nil = "" by rw [docListText]]
      rw [show toJsArr DocList.nil = JsArr.nil by rw [toJsArr]]
      simp [arrParts, utf8Len, utf8LenL]
  | .cons d rest => by
      obtain ⟨j, hj, hle⟩ := doc_stringify_le d
      have ih := docList_stringify_le rest
      rw [show docListText (DocList.cons d rest) = richDocText d ++ docListText rest by
        rw [docListText]]
      rw [show toJsArr (DocList.cons d rest) = JsArr.cons (toJs d) (toJsArr rest) by
        rw [toJsArr]]
      rw [show arrParts (JsArr.cons (toJs d) (toJsArr rest)) =
        ((stringifyVal (toJs d)).getD "null") :: arrParts (toJsArr rest) by rw [arrParts]]
      rw [hj, utf8Len_append]
      simp only [Option.getD_some, List.map_cons, List.sum_cons]
      omega
end

/-- C8: on every data-model rich document the analyzer's `overheadSize` —
serialized byte length minus extracted-text byte length — is non-negative. -/
theorem overhead_nonneg_spec :
    ∀ d : RichDoc, ∃ r, analyzeContentOverhead (toJs d) = .ok r ∧ 0 ≤ r.overheadSize := by
  intro d
  obtain ⟨j, hj, hle⟩ := doc_stringify_le d
  cases d with
  | mk v c =>
      have htj : toJs (.mk v c) = .vobj (toJsFields v c) := by rw [toJs]
      have htrav : traverse (.vobj (toJsFields v c)) = .ok (richDocText (.mk v c)) := by
        have h := traverse_toJs (.mk v c)
        rwa [htj] at h
      rw [htj] at hj ⊢
      rw [analyzeContentOverhead_vobj (toJsFields v c) (richDocText (.mk v c)) htrav]
      refine ⟨_, rfl, ?_⟩
      rw [hj]
      simp only [Option.getD_some]
      omega

end EntrySize
